import Mathlib

/-!
Shallow embedding of `src/app.py` (timestamps_smith).

Dates are modelled as integers counting days from a fixed epoch that falls
on a Monday, so `d % 7` is the Python `date.weekday()` (0 = Monday .. 6 =
Sunday) and adding `n` is `timedelta(days=n)`.  Intraday instants are
minutes from the current day's midnight, so 09:30 is 570, 09:32 is 572 and
15:59 is 959; a `datetime` in the per-day loop is the pair
(current day, minutes), and `hour == 9 and minute == 30` is
`t % 1440 = 570`.

The external trading-calendar provider (`pandas_market_calendars`) is a
black box returning the ascending list of trading days of a range and the
holiday list; it is modelled by `Cal`: an arbitrary session predicate plus
a holiday list, with `schedule` filtering the day range, which yields
exactly an arbitrary ascending subset of the range.  The Gregorian month
of a date is likewise an arbitrary function `month : ℤ → ℕ` passed in.
Python sets are modelled as `Finset ℤ`, Python lists as `List`.
-/

namespace TimestampsSmith

/-- The Trading Calendar Provider collaborator: a session predicate and the
full holiday list of the market (`cal.holidays().holidays`). -/
structure Cal where
  isSession : ℤ → Bool
  holidays : List ℤ

/-- Python `date.weekday()` with the epoch on a Monday. -/
def weekday (d : ℤ) : ℤ := d % 7

/-- All calendar days of `[a, b]`, ascending. -/
def dateRange (a b : ℤ) : List ℤ :=
  (List.range (b + 1 - a).toNat).map (fun k : ℕ => a + (k : ℤ))

/-- `cal.schedule(start_date=a, end_date=b)`: the trading days of `[a, b]`,
ascending (src/app.py line 93 and line 20). -/
def schedule (cal : Cal) (a b : ℤ) : List ℤ :=
  (dateRange a b).filter cal.isSession

/-- The dict appended by `get_short_weeks_with_holidays`
(src/app.py lines 63-69). -/
structure WeekDescriptor where
  week_start : ℤ
  week_end : ℤ
  trading_days : ℕ
  trading_dates : List ℤ
  holidays : List ℤ
deriving DecidableEq

/-- `get_short_weeks_with_holidays` (src/app.py lines 9-74).  The `while`
loop visits `current_date = extended_start + 7*k` for every `k` with
`current_date <= extended_end`; since `extended_start` is the Monday of
`start_date`'s week these are exactly the Mondays of the extended range,
listed here as `weeks`. -/
def get_short_weeks_with_holidays (cal : Cal) (start_date end_date : ℤ) :
    List WeekDescriptor :=
  let extended_start := start_date - weekday start_date
  let extended_end := end_date + (6 - weekday end_date)
  let trading_schedule := schedule cal extended_start extended_end
  let weeks := (List.range (((extended_end - extended_start) / 7 + 1).toNat)).map
    (fun k : ℕ => extended_start + 7 * (k : ℤ))
  weeks.filterMap (fun current_date =>
    let week_start := current_date - weekday current_date
    let week_end := week_start + 4
    let full_week_trading_days := trading_schedule.filter
      (fun d => decide (week_start ≤ d ∧ d ≤ week_end))
    let week_holidays := cal.holidays.filter
      (fun h => decide (week_start ≤ h ∧ h ≤ week_end))
    let week_overlaps_range := week_start ≤ end_date ∧ week_end ≥ start_date
    if full_week_trading_days.length < 5 ∧ 0 < full_week_trading_days.length ∧
        week_overlaps_range then
      let filtered_trading_dates := full_week_trading_days.filter
        (fun d => decide (start_date ≤ d ∧ d ≤ end_date))
      if filtered_trading_dates ≠ [] then
        some ⟨week_start, week_end, full_week_trading_days.length,
          filtered_trading_dates, week_holidays⟩
      else none
    else none)

/-- The per-day `while current_time <= end_time` loop of
`generate_timestamps` (src/app.py lines 159-166), with explicit fuel: the
second component is `true` when the loop reached its exit test and `false`
when the fuel ran out with the loop still running, the first component the
timestamps appended so far.  `current_time` is in minutes from the day's
midnight; 959 is 15:59 and `t % 1440 = 570` is `hour == 9 and minute == 30`. -/
def intervalLoop (interval_min : ℤ) : ℕ → ℤ → List ℤ × Bool
  | 0, _ => ([], false)
  | fuel + 1, current_time =>
    if current_time ≤ 959 then
      let t := if current_time % 1440 = 570 then current_time + 2 else current_time
      let rest := intervalLoop interval_min fuel (t + interval_min)
      (t :: rest.1, rest.2)
    else ([], true)

/-- One day's emitted instants: the loop started at 09:30 (= 570).  Fuel 400
completes the loop for every `interval_min ≥ 1` (each iteration advances
`current_time` by at least 1 and the loop exits past 959); see
`intervalLoop_complete`. -/
def dayTimes (interval_min : ℤ) : List ℤ :=
  (intervalLoop interval_min 400 570).1

/-- The three week-type options of the multiselect (src/app.py line 223),
as an enumerated type instead of the literal strings. -/
inductive WeekType
  | short
  | weekBeforeShort
  | regular
deriving DecidableEq

/-- `short_week_dates` (src/app.py lines 101-103): union of every short-week
descriptor's `trading_dates`. -/
def shortWeekDates (cal : Cal) (start_date end_date : ℤ) : Finset ℤ :=
  (get_short_weeks_with_holidays cal start_date end_date).foldl
    (fun acc week => acc ∪ week.trading_dates.toFinset) ∅

/-- `week_before_short_dates` (src/app.py lines 106-121): for every
short-week descriptor, the sessions of the preceding calendar week looked
up in `trading_schedule = cal.schedule(start_date, end_date)` and clipped
to the query range. -/
def weekBeforeShortDates (cal : Cal) (start_date end_date : ℤ) : Finset ℤ :=
  let trading_schedule := schedule cal start_date end_date
  (get_short_weeks_with_holidays cal start_date end_date).foldl
    (fun acc week =>
      let prev_week_start := week.week_start - 7
      let prev_week_end := prev_week_start + 4
      let prev_week_trading := trading_schedule.filter
        (fun d => decide (prev_week_start ≤ d ∧ d ≤ prev_week_end))
      acc ∪ (prev_week_trading.filter
        (fun d => decide (start_date ≤ d ∧ d ≤ end_date))).toFinset)
    ∅

/-- `all_trading_dates` (src/app.py line 124). -/
def allTradingDates (cal : Cal) (start_date end_date : ℤ) : Finset ℤ :=
  (schedule cal start_date end_date).toFinset

/-- `regular_week_dates` (src/app.py line 127). -/
def regularWeekDates (cal : Cal) (start_date end_date : ℤ) : Finset ℤ :=
  (allTradingDates cal start_date end_date \ shortWeekDates cal start_date end_date) \
    weekBeforeShortDates cal start_date end_date

/-- `valid_dates` (src/app.py lines 129-135): the union of the selected
week types' date sets. -/
def validDates (cal : Cal) (start_date end_date : ℤ) (sel : List WeekType) : Finset ℤ :=
  (if WeekType.short ∈ sel then shortWeekDates cal start_date end_date else ∅) ∪
  (if WeekType.weekBeforeShort ∈ sel then weekBeforeShortDates cal start_date end_date else ∅) ∪
  (if WeekType.regular ∈ sel then regularWeekDates cal start_date end_date else ∅)

/-- Python truthiness and the `len(selected_week_types) < 3` test of
src/app.py lines 97 and 141: the week-type branch runs only when the
argument is a non-empty list of fewer than 3 entries. -/
def weekTypeActive (sel : Option (List WeekType)) : Bool :=
  match sel with
  | none => false
  | some l => !l.isEmpty && decide (l.length < 3)

/-- `if selected_months and current_date.month not in selected_months`
(src/app.py line 145). -/
def monthSkip (month : ℤ → ℕ) (selected_months : Option (List ℕ)) (d : ℤ) : Bool :=
  match selected_months with
  | none => false
  | some l => !l.isEmpty && decide (month d ∉ l)

/-- `if selected_weekdays and current_date.weekday() not in selected_weekdays`
(src/app.py line 148). -/
def weekdaySkip (selected_weekdays : Option (List ℤ)) (d : ℤ) : Bool :=
  match selected_weekdays with
  | none => false
  | some l => !l.isEmpty && decide (weekday d ∉ l)

/-- `generate_timestamps` (src/app.py lines 77-167).  A timestamp record is
the pair (trading day, minutes from that day's midnight) — the information
content of the `"%Y-%m-%d %H:%M"` string, every appended instant staying
within its day.  `month` is the Gregorian month attribute of a date,
abstract here. -/
def generate_timestamps (month : ℤ → ℕ) (cal : Cal)
    (start_date end_date interval_min : ℤ)
    (selected_months : Option (List ℕ)) (selected_weekdays : Option (List ℤ))
    (selected_week_types : Option (List WeekType)) : List (ℤ × ℤ) :=
  let trading_schedule := schedule cal start_date end_date
  let valid_dates : Finset ℤ :=
    if weekTypeActive selected_week_types then
      validDates cal start_date end_date (selected_week_types.getD [])
    else ∅
  trading_schedule.foldl
    (fun timestamps current_date =>
      if weekTypeActive selected_week_types && decide (current_date ∉ valid_dates) then
        timestamps
      else if monthSkip month selected_months current_date then
        timestamps
      else if weekdaySkip selected_weekdays current_date then
        timestamps
      else
        timestamps ++ (dayTimes interval_min).map (fun t => (current_date, t)))
    []

/-- The combined pass predicate of the three `continue` guards of the day
loop (src/app.py lines 140-149). -/
def admissible (month : ℤ → ℕ) (cal : Cal) (start_date end_date : ℤ)
    (selected_months : Option (List ℕ)) (selected_weekdays : Option (List ℤ))
    (selected_week_types : Option (List WeekType)) (d : ℤ) : Bool :=
  !(weekTypeActive selected_week_types &&
      decide (d ∉ validDates cal start_date end_date (selected_week_types.getD []))) &&
  !(monthSkip month selected_months d) &&
  !(weekdaySkip selected_weekdays d)

/-- The errors of the design's taxonomy that the entry point reports. -/
inductive AppError
  | invalidRange
deriving DecidableEq

/-- The range validation of `main` (src/app.py lines 232-234): a range with
`start_date > end_date` is reported as an error and nothing is generated;
otherwise the generator runs. -/
def main_generate (month : ℤ → ℕ) (cal : Cal)
    (start_date end_date interval_min : ℤ)
    (selected_months : Option (List ℕ)) (selected_weekdays : Option (List ℤ))
    (selected_week_types : Option (List WeekType)) :
    Except AppError (List (ℤ × ℤ)) :=
  if start_date > end_date then
    Except.error AppError.invalidRange
  else
    Except.ok (generate_timestamps month cal start_date end_date interval_min
      selected_months selected_weekdays selected_week_types)

/-- Chronological order on timestamp records: strictly earlier day, or the
same day with a strictly earlier minute. -/
def tsLt (a b : ℤ × ℤ) : Prop :=
  a.1 < b.1 ∨ (a.1 = b.1 ∧ a.2 < b.2)

instance : DecidableRel tsLt := fun a b => by
  unfold tsLt
  infer_instance

/-- A market closed on days 1-6 and 8-13: days 0 and 7 are its only
sessions, so the weeks of days 0-4 and 7-11 are two consecutive short
weeks.  Used as a concrete instance. -/
def calAB : Cal := ⟨fun d => decide (d = 0 ∨ d = 7), []⟩

/-- A market open every Monday-Friday from day 0 on. -/
def calW : Cal := ⟨fun d => decide (0 ≤ d ∧ d % 7 < 5), []⟩

/-- A market whose only session is day 3. -/
def calD : Cal := ⟨fun d => decide (d = 3), []⟩

/-- A trivial month attribute for concrete instances. -/
def month1 : ℤ → ℕ := fun _ => 1

lemma mem_dateRange {a b d : ℤ} : d ∈ dateRange a b ↔ a ≤ d ∧ d ≤ b := by
  simp only [dateRange, List.mem_map, List.mem_range]
  constructor
  · rintro ⟨k, hk, rfl⟩
    omega
  · rintro ⟨h1, h2⟩
    exact ⟨(d - a).toNat, by omega, by omega⟩

lemma pairwise_lt_dateRange (a b : ℤ) : (dateRange a b).Pairwise (· < ·) := by
  refine List.Pairwise.map _ (fun i j h => ?_) (List.pairwise_lt_range _)
  omega

lemma nodup_dateRange (a b : ℤ) : (dateRange a b).Nodup :=
  (pairwise_lt_dateRange a b).imp (fun h => ne_of_lt h)

lemma mem_schedule {cal : Cal} {a b d : ℤ} :
    d ∈ schedule cal a b ↔ (a ≤ d ∧ d ≤ b) ∧ cal.isSession d = true := by
  simp [schedule, List.mem_filter, mem_dateRange]

lemma pairwise_lt_schedule (cal : Cal) (a b : ℤ) :
    (schedule cal a b).Pairwise (· < ·) :=
  (pairwise_lt_dateRange a b).filter _

lemma nodup_schedule (cal : Cal) (a b : ℤ) : (schedule cal a b).Nodup :=
  (nodup_dateRange a b).filter _

lemma mem_foldl_union {α β : Type} [DecidableEq β] (f : α → Finset β) (x : β) :
    ∀ (l : List α) (init : Finset β),
      x ∈ l.foldl (fun acc w => acc ∪ f w) init ↔ x ∈ init ∨ ∃ w ∈ l, x ∈ f w := by
  intro l
  induction l with
  | nil => simp
  | cons w l ih =>
    intro init
    simp [List.foldl_cons, ih, Finset.mem_union, or_assoc]

lemma intervalLoop_complete {interval_min : ℤ} (h : 1 ≤ interval_min) :
    ∀ (fuel : ℕ) (t : ℤ), 960 ≤ t + fuel →
      (intervalLoop interval_min (fuel + 1) t).2 = true := by
  intro fuel
  induction fuel with
  | zero =>
    intro t ht
    have h959 : ¬ t ≤ 959 := by push_cast at ht; omega
    simp [intervalLoop, h959]
  | succ f ih =>
    intro t ht
    by_cases h959 : t ≤ 959
    · simp only [intervalLoop, if_pos h959]
      apply ih
      push_cast at ht ⊢
      split <;> omega
    · simp [intervalLoop, h959]

lemma intervalLoop_not_complete {interval_min : ℤ} (h : interval_min ≤ 0) :
    ∀ (fuel : ℕ) (t : ℤ), t ≤ 959 → (intervalLoop interval_min fuel t).2 = false := by
  intro fuel
  induction fuel with
  | zero => intro t _; rfl
  | succ f ih =>
    intro t ht
    simp only [intervalLoop, if_pos ht]
    apply ih
    split <;> omega

lemma intervalLoop_getElem {interval_min : ℤ} (h : 1 ≤ interval_min) :
    ∀ (fuel : ℕ) (t : ℤ), 570 < t → ∀ (k : ℕ) (x : ℤ),
      ((intervalLoop interval_min fuel t).1)[k]? = some x →
        x = t + interval_min * k := by
  intro fuel
  induction fuel with
  | zero => intro t _ k x hx; simp [intervalLoop] at hx
  | succ f ih =>
    intro t ht k x hx
    by_cases h959 : t ≤ 959
    · have hne : ¬ t % 1440 = 570 := by omega
      simp only [intervalLoop, if_pos h959, if_neg hne] at hx
      cases k with
      | zero =>
        simp only [List.getElem?_cons_zero, Option.some.injEq] at hx
        simp [← hx]
      | succ k' =>
        simp only [List.getElem?_cons_succ] at hx
        have hx' := ih (t + interval_min) (by omega) k' x hx
        rw [hx']
        push_cast
        ring
    · simp [intervalLoop, h959] at hx

lemma intervalLoop_succ (interval_min : ℤ) (fuel : ℕ) (t : ℤ) :
    intervalLoop interval_min (fuel + 1) t =
      if t ≤ 959 then
        let t' := if t % 1440 = 570 then t + 2 else t
        let rest := intervalLoop interval_min fuel (t' + interval_min)
        (t' :: rest.1, rest.2)
      else ([], true) := rfl

lemma dayTimes_eq_cons (interval_min : ℤ) :
    dayTimes interval_min =
      572 :: (intervalLoop interval_min 399 (572 + interval_min)).1 := by
  unfold dayTimes
  rw [show (400 : ℕ) = 399 + 1 from rfl, intervalLoop_succ]
  norm_num

lemma dayTimes_getElem {interval_min : ℤ} (h : 1 ≤ interval_min) (k : ℕ) (x : ℤ)
    (hx : (dayTimes interval_min)[k]? = some x) : x = 572 + interval_min * k := by
  rw [dayTimes_eq_cons] at hx
  cases k with
  | zero =>
    simp only [List.getElem?_cons_zero, Option.some.injEq] at hx
    simp [← hx]
  | succ k' =>
    simp only [List.getElem?_cons_succ] at hx
    have hx' := intervalLoop_getElem h 399 (572 + interval_min) (by omega) k' x hx
    rw [hx']
    push_cast
    ring

lemma dayTimes_pairwise_lt {interval_min : ℤ} (h : 1 ≤ interval_min) :
    (dayTimes interval_min).Pairwise (· < ·) := by
  rw [List.pairwise_iff_getElem]
  intro i j hi hj hij
  have hxi := dayTimes_getElem h i _ (List.getElem?_eq_getElem hi).symm.symm
  have hxj := dayTimes_getElem h j _ (List.getElem?_eq_getElem hj).symm.symm
  rw [hxi, hxj]
  have hij' : (i : ℤ) < (j : ℤ) := by exact_mod_cast hij
  have := mul_lt_mul_of_pos_left hij' (show (0:ℤ) < interval_min by omega)
  omega

lemma foldl_skip_append {α β : Type} (A B C : α → Bool) (g : α → List β) :
    ∀ (l : List α) (init : List β),
      l.foldl (fun acc d => if A d then acc else if B d then acc else if C d then acc
        else acc ++ g d) init =
      init ++ (l.filter (fun d => !A d && !B d && !C d)).flatMap g := by
  intro l
  induction l with
  | nil => simp
  | cons d l ih =>
    intro init
    by_cases hA : A d
    · simp [hA, ih]
    · by_cases hB : B d
      · simp [hA, hB, ih]
      · by_cases hC : C d
        · simp [hA, hB, hC, ih]
        · simp [hA, hB, hC, ih, List.append_assoc]

lemma generate_timestamps_eq_bind (month : ℤ → ℕ) (cal : Cal)
    (start_date end_date interval_min : ℤ) (selected_months : Option (List ℕ))
    (selected_weekdays : Option (List ℤ)) (selected_week_types : Option (List WeekType)) :
    generate_timestamps month cal start_date end_date interval_min selected_months
        selected_weekdays selected_week_types =
      ((schedule cal start_date end_date).filter
          (admissible month cal start_date end_date selected_months selected_weekdays
            selected_week_types)).flatMap
        (fun d => (dayTimes interval_min).map (fun t => (d, t))) := by
  simp only [generate_timestamps]
  rw [foldl_skip_append
    (fun d => weekTypeActive selected_week_types && decide (d ∉
      (if weekTypeActive selected_week_types then
        validDates cal start_date end_date (selected_week_types.getD []) else ∅)))
    (monthSkip month selected_months) (weekdaySkip selected_weekdays)
    (fun d => (dayTimes interval_min).map (fun t => (d, t)))]
  rw [List.nil_append]
  congr 1
  apply List.filter_congr
  intro d _
  unfold admissible
  cases hA : weekTypeActive selected_week_types <;> simp [hA]

lemma mem_generate_timestamps {month : ℤ → ℕ} {cal : Cal}
    {start_date end_date interval_min : ℤ} {selected_months : Option (List ℕ)}
    {selected_weekdays : Option (List ℤ)} {selected_week_types : Option (List WeekType)}
    {d t : ℤ} :
    (d, t) ∈ generate_timestamps month cal start_date end_date interval_min
        selected_months selected_weekdays selected_week_types ↔
      d ∈ schedule cal start_date end_date ∧
      admissible month cal start_date end_date selected_months selected_weekdays
        selected_week_types d = true ∧
      t ∈ dayTimes interval_min := by
  rw [generate_timestamps_eq_bind]
  simp only [List.mem_flatMap, List.mem_filter, List.mem_map, Prod.mk.injEq]
  constructor
  · rintro ⟨d', ⟨hd, ha⟩, t', ht, rfl, rfl⟩
    exact ⟨hd, ha, ht⟩
  · rintro ⟨hd, ha, ht⟩
    exact ⟨d, ⟨hd, ha⟩, t, ht, rfl, rfl⟩

lemma schedule_filter_eq (cal : Cal) {A B c E : ℤ} (hA : A ≤ c) (hB : E ≤ B) :
    (schedule cal A B).filter (fun d => decide (c ≤ d ∧ d ≤ E)) = schedule cal c E := by
  have h1 : ((schedule cal A B).filter (fun d => decide (c ≤ d ∧ d ≤ E))).Nodup :=
    (nodup_schedule cal A B).filter _
  have h2 := nodup_schedule cal c E
  have hfin : ((schedule cal A B).filter (fun d => decide (c ≤ d ∧ d ≤ E))).toFinset =
      (schedule cal c E).toFinset := by
    ext d
    simp only [List.mem_toFinset, List.mem_filter, mem_schedule, decide_eq_true_eq]
    constructor
    · rintro ⟨⟨⟨_, _⟩, hs⟩, hc, hE⟩
      exact ⟨⟨hc, hE⟩, hs⟩
    · rintro ⟨⟨hc, hE⟩, hs⟩
      exact ⟨⟨⟨by omega, by omega⟩, hs⟩, hc, hE⟩
  have hperm := List.perm_of_nodup_nodup_toFinset_eq h1 h2 hfin
  have hs1 : ((schedule cal A B).filter (fun d => decide (c ≤ d ∧ d ≤ E))).Sorted (· ≤ ·) :=
    ((pairwise_lt_schedule cal A B).filter _).imp le_of_lt
  have hs2 : (schedule cal c E).Sorted (· ≤ ·) :=
    (pairwise_lt_schedule cal c E).imp le_of_lt
  exact List.eq_of_perm_of_sorted hperm hs1 hs2

lemma get_short_weeks_spec {cal : Cal} {s e : ℤ} {w : WeekDescriptor}
    (hw : w ∈ get_short_weeks_with_holidays cal s e) :
    w.week_start % 7 = 0 ∧
    w.week_end = w.week_start + 4 ∧
    w.week_start ≤ e ∧ s ≤ w.week_end ∧
    w.trading_days = (schedule cal w.week_start w.week_end).length ∧
    0 < w.trading_days ∧ w.trading_days < 5 ∧
    w.trading_dates = (schedule cal w.week_start w.week_end).filter
      (fun d => decide (s ≤ d ∧ d ≤ e)) ∧
    w.trading_dates ≠ [] := by
  simp only [get_short_weeks_with_holidays, weekday, List.mem_filterMap, List.mem_map,
    List.mem_range] at hw
  obtain ⟨c, ⟨k, hk, rfl⟩, heq⟩ := hw
  split_ifs at heq with h1 h2
  · have hlt5 := h1.1
    have hpos := h1.2.1
    have hov1 := h1.2.2.1
    have hov2 := h1.2.2.2
    injection heq with heq
    subst heq
    dsimp only
    have hA : s - s % 7 ≤ s - s % 7 + 7 * (k : ℤ) - (s - s % 7 + 7 * (k : ℤ)) % 7 := by
      omega
    have hB : s - s % 7 + 7 * (k : ℤ) - (s - s % 7 + 7 * (k : ℤ)) % 7 + 4 ≤
        e + (6 - e % 7) := by
      omega
    rw [schedule_filter_eq cal hA hB] at hlt5 hpos h2 ⊢
    refine ⟨by omega, rfl, hov1, by omega, rfl, hpos, hlt5, rfl, h2⟩

lemma mem_trading_dates {cal : Cal} {s e : ℤ} {w : WeekDescriptor}
    (hw : w ∈ get_short_weeks_with_holidays cal s e) {d : ℤ} (hd : d ∈ w.trading_dates) :
    d ∈ schedule cal s e ∧ w.week_start ≤ d ∧ d ≤ w.week_end := by
  obtain ⟨-, -, -, -, -, -, -, hdates, -⟩ := get_short_weeks_spec hw
  rw [hdates] at hd
  simp only [List.mem_filter, mem_schedule, decide_eq_true_eq] at hd
  obtain ⟨⟨⟨h1, h2⟩, hs⟩, h3, h4⟩ := hd
  exact ⟨mem_schedule.2 ⟨⟨h3, h4⟩, hs⟩, h1, h2⟩

lemma mem_shortWeekDates {cal : Cal} {s e x : ℤ} :
    x ∈ shortWeekDates cal s e ↔
      ∃ w ∈ get_short_weeks_with_holidays cal s e, x ∈ w.trading_dates := by
  unfold shortWeekDates
  rw [mem_foldl_union]
  simp

lemma mem_weekBeforeShortDates {cal : Cal} {s e x : ℤ} :
    x ∈ weekBeforeShortDates cal s e ↔
      ∃ w ∈ get_short_weeks_with_holidays cal s e,
        x ∈ schedule cal s e ∧ w.week_start - 7 ≤ x ∧ x ≤ w.week_start - 7 + 4 ∧
        s ≤ x ∧ x ≤ e := by
  unfold weekBeforeShortDates
  rw [mem_foldl_union]
  simp only [Finset.not_mem_empty, List.mem_toFinset, List.mem_filter,
    decide_eq_true_eq, false_or]
  constructor
  · rintro ⟨w, hw, ⟨hx, h1, h2⟩, h3, h4⟩
    exact ⟨w, hw, hx, h1, h2, h3, h4⟩
  · rintro ⟨w, hw, hx, h1, h2, h3, h4⟩
    exact ⟨w, hw, ⟨hx, h1, h2⟩, h3, h4⟩

lemma shortWeekDates_subset {cal : Cal} {s e x : ℤ} (hx : x ∈ shortWeekDates cal s e) :
    x ∈ allTradingDates cal s e := by
  obtain ⟨w, hw, hd⟩ := mem_shortWeekDates.1 hx
  exact List.mem_toFinset.2 (mem_trading_dates hw hd).1

lemma weekBeforeShortDates_subset {cal : Cal} {s e x : ℤ}
    (hx : x ∈ weekBeforeShortDates cal s e) : x ∈ allTradingDates cal s e := by
  obtain ⟨w, hw, hx', -⟩ := mem_weekBeforeShortDates.1 hx
  exact List.mem_toFinset.2 hx'

lemma mem_month_list {n : ℕ} (h1 : 1 ≤ n) (h2 : n ≤ 12) :
    n ∈ [1, 2, 3, 4, 5, 6, 7, 8, 9, 10, 11, 12] := by
  interval_cases n <;> simp

lemma mem_weekday_list {x : ℤ} (h1 : 0 ≤ x) (h2 : x < 5) :
    x ∈ ([0, 1, 2, 3, 4] : List ℤ) := by
  have hx : x = 0 ∨ x = 1 ∨ x = 2 ∨ x = 3 ∨ x = 4 := by omega
  rcases hx with rfl | rfl | rfl | rfl | rfl <;> simp

lemma pairwise_tsLt_flatMap (days times : List ℤ)
    (hd : days.Pairwise (· < ·)) (ht : times.Pairwise (· < ·)) :
    (days.flatMap (fun d => times.map (fun t => (d, t)))).Pairwise tsLt := by
  induction days with
  | nil => simp
  | cons d ds ih =>
    rw [List.pairwise_cons] at hd
    rw [List.flatMap_cons, List.pairwise_append]
    refine ⟨ht.map _ (fun a b hab => Or.inr ⟨rfl, hab⟩), ih hd.2, ?_⟩
    intro a ha b hb
    obtain ⟨t, -, rfl⟩ := List.mem_map.1 ha
    obtain ⟨d', hd', hb'⟩ := List.mem_flatMap.1 hb
    obtain ⟨t', -, rfl⟩ := List.mem_map.1 hb'
    exact Or.inl (hd.1 d' hd')

/-- C1, counterexample to the claim as stated: with `interval_min = 5` the
instant emitted after the shifted 09:32 is 09:37 (= 577), not the 09:35
(= 575) that stepping from the original unshifted 09:30 schedule would
give. -/
theorem C1_counterexample :
    (dayTimes 5)[1]? = some 577 ∧ (dayTimes 5)[1]? ≠ some 575 := by
  constructor
  · decide
  · decide

/-- C1, amended: the 2-minute open shift is applied to the loop variable
itself, so it propagates — for `interval_min ≥ 1` the k-th emitted instant
of a day is `572 + interval_min * k` (09:32 plus k whole intervals), i.e.
every subsequent instant steps by `interval_min` from the shifted 09:32,
not from the original 09:30 schedule, and consecutive instants are never
closer than `interval_min`. -/
theorem C1_shift_propagates (interval_min : ℤ) (k : ℕ) (x : ℤ)
    (h : 1 ≤ interval_min) (hx : (dayTimes interval_min)[k]? = some x) :
    x = 572 + interval_min * k :=
  dayTimes_getElem h k x hx

/-- C1, witness for `C1_shift_propagates` at `interval_min = 5`, `k = 1`. -/
theorem C1_shift_propagates_witness :
    (1 : ℤ) ≤ 5 ∧ (dayTimes 5)[1]? = some 577 ∧
      (577 : ℤ) = 572 + 5 * ((1 : ℕ) : ℤ) :=
  ⟨by norm_num, by decide, C1_shift_propagates 5 1 577 (by norm_num) (by decide)⟩

/-- C2, counterexample to the claim as stated: for the market `calAB`
(sessions exactly on days 0 and 7, two consecutive short weeks) and the
range [0, 11], day 0 lies both in `ShortWeekDates` (it is a trading date
of the short week 0-4) and in `WeekBeforeShortDates` (it is a session of
the week preceding the short week 7-11), so the three sets are not
pairwise disjoint. -/
theorem C2_counterexample :
    (0 : ℤ) ∈ shortWeekDates calAB 0 11 ∩ weekBeforeShortDates calAB 0 11 := by
  decide

/-- C2, amended: `RegularDates` is disjoint from both other sets and the
union of the three sets is exactly the trading sessions of the range, but
`ShortWeekDates` and `WeekBeforeShortDates` can intersect (when a short
week immediately follows another short week, as `C2_counterexample`
shows). -/
theorem C2_week_type_sets (cal : Cal) (s e : ℤ) :
    regularWeekDates cal s e ∩ shortWeekDates cal s e = ∅ ∧
    regularWeekDates cal s e ∩ weekBeforeShortDates cal s e = ∅ ∧
    shortWeekDates cal s e ∪ weekBeforeShortDates cal s e ∪ regularWeekDates cal s e =
      allTradingDates cal s e := by
  refine ⟨?_, ?_, ?_⟩
  · ext x
    simp only [regularWeekDates, Finset.mem_inter, Finset.mem_sdiff,
      Finset.not_mem_empty, iff_false, not_and]
    tauto
  · ext x
    simp only [regularWeekDates, Finset.mem_inter, Finset.mem_sdiff,
      Finset.not_mem_empty, iff_false, not_and]
    tauto
  · ext x
    simp only [regularWeekDates, Finset.mem_union, Finset.mem_sdiff]
    constructor
    · rintro ((h | h) | h)
      · exact shortWeekDates_subset h
      · exact weekBeforeShortDates_subset h
      · exact h.1.1
    · intro hx
      by_cases hs : x ∈ shortWeekDates cal s e
      · exact Or.inl (Or.inl hs)
      · by_cases hb : x ∈ weekBeforeShortDates cal s e
        · exact Or.inl (Or.inr hb)
        · exact Or.inr ⟨⟨hx, hs⟩, hb⟩

/-- C3: for a single trading day (market `calD`, day 3) with
`interval_min = 5` and no filters, the first three emitted instants are
09:32, 09:37, 09:42 (572, 577, 582), a bare 09:30 (570) is never emitted,
every emitted instant is at most the 15:59 cutoff (959), and an instant
that lands exactly on the cutoff is included (shown with
`interval_min = 3`, whose grid reaches 15:59 exactly; with interval 5 the
grid never lands on 959). -/
theorem C3_single_day_scenario :
    ((generate_timestamps month1 calD 3 3 5 none none none).map Prod.snd).take 3 =
      [572, 577, 582] ∧
    (∀ p ∈ generate_timestamps month1 calD 3 3 5 none none none, p.2 ≤ 959) ∧
    (3, 570) ∉ generate_timestamps month1 calD 3 3 5 none none none ∧
    (3, 959) ∈ generate_timestamps month1 calD 3 3 3 none none none := by
  refine ⟨by decide, by decide, by decide, by decide⟩

/-- C4, counterexample to the claim as stated: nothing in the code rejects
`interval_min ≤ 0` — with `interval_min = 0` the per-day loop is entered
and emits timestamps (09:32 repeatedly) without ever finishing: after 3
iterations it has produced three instants and is still running. -/
theorem C4_counterexample : intervalLoop 0 3 570 = ([572, 572, 572], false) := by
  decide

/-- C4, amended: no rejection is performed; instead, for every
`interval_min ≤ 0` the per-day loop started at 09:30 never terminates
(no amount of fuel completes it), for every `interval_min ≥ 1` it does
terminate, and an input on which no date is admissible yields the empty
sequence rather than an error. -/
theorem C4_degenerate_interval :
    (∀ interval_min : ℤ, interval_min ≤ 0 →
      ∀ fuel : ℕ, (intervalLoop interval_min fuel 570).2 = false) ∧
    (∀ interval_min : ℤ, 1 ≤ interval_min →
      (intervalLoop interval_min 400 570).2 = true) ∧
    (∀ (month : ℤ → ℕ) (cal : Cal) (s e iv : ℤ) (msel : Option (List ℕ))
        (wsel : Option (List ℤ)) (wtsel : Option (List WeekType)),
      (∀ d ∈ schedule cal s e, admissible month cal s e msel wsel wtsel d = false) →
      generate_timestamps month cal s e iv msel wsel wtsel = []) := by
  refine ⟨?_, ?_, ?_⟩
  · intro iv hiv fuel
    exact intervalLoop_not_complete hiv fuel 570 (by norm_num)
  · intro iv hiv
    have h := intervalLoop_complete hiv 399 570 (by norm_num)
    simpa using h
  · intro month cal s e iv msel wsel wtsel hall
    rw [generate_timestamps_eq_bind]
    have hnil : (schedule cal s e).filter
        (admissible month cal s e msel wsel wtsel) = [] := by
      rw [List.filter_eq_nil_iff]
      intro d hd
      simp [hall d hd]
    rw [hnil]
    rfl

/-- C4, witness for `C4_degenerate_interval` at intervals 0 and 5 and at a
range [1, 1] containing no session of `calAB`. -/
theorem C4_degenerate_interval_witness :
    (intervalLoop 0 5 570).2 = false ∧ (intervalLoop 5 400 570).2 = true ∧
    generate_timestamps month1 calAB 1 1 5 none none none = [] := by
  refine ⟨C4_degenerate_interval.1 0 (by norm_num) 5,
    C4_degenerate_interval.2.1 5 (by norm_num),
    C4_degenerate_interval.2.2 month1 calAB 1 1 5 none none none ?_⟩
  intro d hd
  rw [show schedule calAB 1 1 = [] from by decide] at hd
  exact absurd hd (List.not_mem_nil d)

/-- C5: a query with `start_date > end_date` is reported as the invalid-range
error before any generation runs, and no timestamps are produced. -/
theorem C5_invalid_range (month : ℤ → ℕ) (cal : Cal)
    (start_date end_date interval_min : ℤ) (msel : Option (List ℕ))
    (wsel : Option (List ℤ)) (wtsel : Option (List WeekType))
    (h : end_date < start_date) :
    main_generate month cal start_date end_date interval_min msel wsel wtsel =
      Except.error AppError.invalidRange := by
  unfold main_generate
  rw [if_pos h]

/-- C5, witness for `C5_invalid_range` at the concrete range [5, 3]. -/
theorem C5_invalid_range_witness :
    (3 : ℤ) < 5 ∧ main_generate month1 calAB 5 3 5 none none none =
      Except.error AppError.invalidRange :=
  ⟨by norm_num, C5_invalid_range month1 calAB 5 3 5 none none none (by norm_num)⟩

/-- C6: every descriptor produced by the short-week classifier has a full
Mon-Fri trading-day count strictly between 0 and 5, `week_end` exactly four
days after `week_start`, `week_start` on a Monday, `trading_day_count`
equal to the number of sessions of the full Mon-Fri span, and a non-empty
`trading_dates` list all of whose dates lie in `[start_date, end_date]`. -/
theorem C6_descriptor_invariants (cal : Cal) (start_date end_date : ℤ)
    (w : WeekDescriptor)
    (hw : w ∈ get_short_weeks_with_holidays cal start_date end_date) :
    (0 < w.trading_days ∧ w.trading_days < 5) ∧
    w.week_end = w.week_start + 4 ∧
    w.week_start % 7 = 0 ∧
    w.trading_days = (schedule cal w.week_start w.week_end).length ∧
    w.trading_dates ≠ [] ∧
    ∀ d ∈ w.trading_dates, start_date ≤ d ∧ d ≤ end_date := by
  obtain ⟨h1, h2, h3, h4, h5, h6, h7, h8, h9⟩ := get_short_weeks_spec hw
  refine ⟨⟨h6, h7⟩, h2, h1, h5, h9, ?_⟩
  intro d hd
  rw [h8] at hd
  simp only [List.mem_filter, decide_eq_true_eq] at hd
  exact hd.2

/-- C6, witness for `C6_descriptor_invariants` at the first descriptor of
`calAB` over [0, 11]. -/
theorem C6_descriptor_invariants_witness :
    (0 < (1 : ℕ) ∧ (1 : ℕ) < 5) ∧
    (4 : ℤ) = 0 + 4 ∧
    (0 : ℤ) % 7 = 0 ∧
    (1 : ℕ) = (schedule calAB 0 4).length ∧
    ([0] : List ℤ) ≠ [] ∧
    (∀ d ∈ ([0] : List ℤ), (0 : ℤ) ≤ d ∧ d ≤ 11) :=
  C6_descriptor_invariants calAB 0 11 ⟨0, 4, 1, [0], []⟩ (by decide)

/-- C7: for every range with `start_date ≤ end_date` and every filter
combination, the date of every emitted timestamp lies in the range and is
a trading session of the market calendar for that range. -/
theorem C7_dates_are_sessions_in_range (month : ℤ → ℕ) (cal : Cal)
    (start_date end_date interval_min : ℤ) (msel : Option (List ℕ))
    (wsel : Option (List ℤ)) (wtsel : Option (List WeekType))
    (_hrange : start_date ≤ end_date) :
    ∀ p ∈ generate_timestamps month cal start_date end_date interval_min
        msel wsel wtsel,
      start_date ≤ p.1 ∧ p.1 ≤ end_date ∧ p.1 ∈ schedule cal start_date end_date := by
  rintro ⟨d, t⟩ hp
  obtain ⟨hd, -, -⟩ := mem_generate_timestamps.1 hp
  obtain ⟨⟨hd1, hd2⟩, -⟩ := mem_schedule.1 hd
  exact ⟨hd1, hd2, hd⟩

/-- C7, witness for `C7_dates_are_sessions_in_range` at `calW`, range
[0, 8], interval 200. -/
theorem C7_dates_are_sessions_in_range_witness :
    (0 : ℤ) ≤ 8 ∧
    ∀ p ∈ generate_timestamps month1 calW 0 8 200 none none none,
      (0 : ℤ) ≤ p.1 ∧ p.1 ≤ 8 ∧ p.1 ∈ schedule calW 0 8 :=
  ⟨by norm_num,
    C7_dates_are_sessions_in_range month1 calW 0 8 200 none none none (by norm_num)⟩

/-- C8: with `interval_min ≥ 1` the output of `generate_timestamps` is
chronologically ordered — any earlier entry has a strictly earlier day, or
the same day and a strictly earlier (in particular non-decreasing) time,
so all of an earlier day's timestamps precede all of a later day's. -/
theorem C8_chronological_order (month : ℤ → ℕ) (cal : Cal)
    (start_date end_date interval_min : ℤ) (msel : Option (List ℕ))
    (wsel : Option (List ℤ)) (wtsel : Option (List WeekType))
    (h : 1 ≤ interval_min) :
    (generate_timestamps month cal start_date end_date interval_min
      msel wsel wtsel).Pairwise tsLt := by
  rw [generate_timestamps_eq_bind]
  exact pairwise_tsLt_flatMap _ _
    ((pairwise_lt_schedule cal start_date end_date).filter _)
    (dayTimes_pairwise_lt h)

/-- C8, witness for `C8_chronological_order` at `calW`, range [0, 8],
interval 200. -/
theorem C8_chronological_order_witness :
    (1 : ℤ) ≤ 200 ∧
    (generate_timestamps month1 calW 0 8 200 none none none).Pairwise tsLt :=
  ⟨by norm_num, C8_chronological_order month1 calW 0 8 200 none none none (by norm_num)⟩

/-- C9: the month and weekday filters are conjunctive — with a non-empty
month selection every emitted timestamp's month is selected, with a
non-empty weekday selection every emitted timestamp's weekday is selected,
and a full selection of either filter (all 12 months; all five trading
weekdays, for a market that never trades on weekends) is a no-op,
producing the same output as no filter at all. -/
theorem C9_conjunctive_filters :
    (∀ (month : ℤ → ℕ) (cal : Cal) (s e iv : ℤ) (lm : List ℕ)
        (wsel : Option (List ℤ)) (wtsel : Option (List WeekType)), lm ≠ [] →
      ∀ p ∈ generate_timestamps month cal s e iv (some lm) wsel wtsel,
        month p.1 ∈ lm) ∧
    (∀ (month : ℤ → ℕ) (cal : Cal) (s e iv : ℤ) (msel : Option (List ℕ))
        (lw : List ℤ) (wtsel : Option (List WeekType)), lw ≠ [] →
      ∀ p ∈ generate_timestamps month cal s e iv msel (some lw) wtsel,
        weekday p.1 ∈ lw) ∧
    (∀ (month : ℤ → ℕ) (cal : Cal) (s e iv : ℤ) (wsel : Option (List ℤ))
        (wtsel : Option (List WeekType)),
      (∀ d, 1 ≤ month d ∧ month d ≤ 12) →
      generate_timestamps month cal s e iv
          (some [1, 2, 3, 4, 5, 6, 7, 8, 9, 10, 11, 12]) wsel wtsel =
        generate_timestamps month cal s e iv none wsel wtsel) ∧
    (∀ (month : ℤ → ℕ) (cal : Cal) (s e iv : ℤ) (msel : Option (List ℕ))
        (wtsel : Option (List WeekType)),
      (∀ d, cal.isSession d = true → weekday d < 5) →
      generate_timestamps month cal s e iv msel (some [0, 1, 2, 3, 4]) wtsel =
        generate_timestamps month cal s e iv msel none wtsel) := by
  refine ⟨?_, ?_, ?_, ?_⟩
  · intro month cal s e iv lm wsel wtsel hne p hp
    obtain ⟨d, t⟩ := p
    obtain ⟨-, ha, -⟩ := mem_generate_timestamps.1 hp
    unfold admissible at ha
    simp only [Bool.and_eq_true, Bool.not_eq_true'] at ha
    have hm : (!lm.isEmpty && decide (month d ∉ lm)) = false := ha.1.2
    show month d ∈ lm
    by_contra hmem
    have hne' : lm.isEmpty = false := by
      cases lm with
      | nil => exact absurd rfl hne
      | cons a l => rfl
    rw [hne'] at hm
    simp [hmem] at hm
  · intro month cal s e iv msel lw wtsel hne p hp
    obtain ⟨d, t⟩ := p
    obtain ⟨-, ha, -⟩ := mem_generate_timestamps.1 hp
    unfold admissible at ha
    simp only [Bool.and_eq_true, Bool.not_eq_true'] at ha
    have hm : (!lw.isEmpty && decide (weekday d ∉ lw)) = false := ha.2
    show weekday d ∈ lw
    by_contra hmem
    have hne' : lw.isEmpty = false := by
      cases lw with
      | nil => exact absurd rfl hne
      | cons a l => rfl
    rw [hne'] at hm
    simp [hmem] at hm
  · intro month cal s e iv wsel wtsel hm
    rw [generate_timestamps_eq_bind, generate_timestamps_eq_bind]
    congr 1
    apply List.filter_congr
    intro d _
    unfold admissible
    have h1 : monthSkip month (some [1, 2, 3, 4, 5, 6, 7, 8, 9, 10, 11, 12]) d = false := by
      unfold monthSkip
      simp [mem_month_list (hm d).1 (hm d).2]
    rw [h1]
    rfl
  · intro month cal s e iv msel wtsel hm
    rw [generate_timestamps_eq_bind, generate_timestamps_eq_bind]
    congr 1
    apply List.filter_congr
    intro d hd
    unfold admissible
    have hsess := (mem_schedule.1 hd).2
    have h1 : weekdaySkip (some [0, 1, 2, 3, 4]) d = false := by
      unfold weekdaySkip
      have h0 : 0 ≤ weekday d := Int.emod_nonneg d (by norm_num)
      simp [mem_weekday_list h0 (hm d hsess)]
    rw [h1]
    rfl

/-- C9, witness for `C9_conjunctive_filters` at a singleton month filter
and at the full-month no-op. -/
theorem C9_conjunctive_filters_witness :
    (([1] : List ℕ) ≠ [] ∧
      ∀ p ∈ generate_timestamps month1 calW 0 8 200 (some [1]) none none,
        month1 p.1 ∈ [1]) ∧
    ((∀ d, 1 ≤ month1 d ∧ month1 d ≤ 12) ∧
      generate_timestamps month1 calW 0 8 200
          (some [1, 2, 3, 4, 5, 6, 7, 8, 9, 10, 11, 12]) none none =
        generate_timestamps month1 calW 0 8 200 none none none) :=
  ⟨⟨by simp, C9_conjunctive_filters.1 month1 calW 0 8 200 [1] none none (by simp)⟩,
    ⟨fun d => ⟨by simp [month1], by simp [month1]⟩,
      C9_conjunctive_filters.2.2.1 month1 calW 0 8 200 none none
        (fun d => ⟨by simp [month1], by simp [month1]⟩)⟩⟩

/-- C10: a `None` or empty month, weekday or week-type selection disables
the corresponding filter (the generator behaves exactly as with no filter,
and the skip guards pass every date), and a week-type selection with all
three (or more) entries skips the short-week classification branch
entirely, behaving like no week-type filter. -/
theorem C10_absent_filters :
    (∀ (month : ℤ → ℕ) (cal : Cal) (s e iv : ℤ) (wsel : Option (List ℤ))
        (wtsel : Option (List WeekType)),
      generate_timestamps month cal s e iv none wsel wtsel =
        generate_timestamps month cal s e iv (some []) wsel wtsel) ∧
    (∀ (month : ℤ → ℕ) (cal : Cal) (s e iv : ℤ) (msel : Option (List ℕ))
        (wtsel : Option (List WeekType)),
      generate_timestamps month cal s e iv msel none wtsel =
        generate_timestamps month cal s e iv msel (some []) wtsel) ∧
    (∀ (month : ℤ → ℕ) (cal : Cal) (s e iv : ℤ) (msel : Option (List ℕ))
        (wsel : Option (List ℤ)),
      generate_timestamps month cal s e iv msel wsel none =
        generate_timestamps month cal s e iv msel wsel (some [])) ∧
    (∀ (month : ℤ → ℕ) (cal : Cal) (s e iv : ℤ) (msel : Option (List ℕ))
        (wsel : Option (List ℤ)) (wl : List WeekType), 3 ≤ wl.length →
      generate_timestamps month cal s e iv msel wsel (some wl) =
        generate_timestamps month cal s e iv msel wsel none) ∧
    (∀ (month : ℤ → ℕ) (d : ℤ),
      monthSkip month none d = false ∧ monthSkip month (some []) d = false) ∧
    (∀ d : ℤ, weekdaySkip none d = false ∧ weekdaySkip (some []) d = false) ∧
    (weekTypeActive none = false ∧ weekTypeActive (some []) = false ∧
      ∀ wl : List WeekType, 3 ≤ wl.length → weekTypeActive (some wl) = false) := by
  refine ⟨fun month cal s e iv wsel wtsel => rfl,
    fun month cal s e iv msel wtsel => rfl,
    fun month cal s e iv msel wsel => rfl,
    ?_,
    fun month d => ⟨rfl, rfl⟩,
    fun d => ⟨rfl, rfl⟩,
    rfl, rfl, ?_⟩
  · intro month cal s e iv msel wsel wl hwl
    have hwt : weekTypeActive (some wl) = false := by
      unfold weekTypeActive
      simp [Nat.not_lt.2 hwl]
    rw [generate_timestamps_eq_bind, generate_timestamps_eq_bind]
    congr 1
    apply List.filter_congr
    intro d _
    unfold admissible
    rw [hwt]
    rfl
  · intro wl hwl
    unfold weekTypeActive
    simp [Nat.not_lt.2 hwl]

/-- C10, witness for `C10_absent_filters` at a three-entry week-type
selection over the single-session market `calD`. -/
theorem C10_absent_filters_witness :
    3 ≤ ([WeekType.short, WeekType.weekBeforeShort, WeekType.regular] : List WeekType).length ∧
    generate_timestamps month1 calD 3 3 5 none none
        (some [WeekType.short, WeekType.weekBeforeShort, WeekType.regular]) =
      generate_timestamps month1 calD 3 3 5 none none none :=
  ⟨by simp, C10_absent_filters.2.2.2.1 month1 calD 3 3 5 none none
    [WeekType.short, WeekType.weekBeforeShort, WeekType.regular] (by simp)⟩

end TimestampsSmith
